import Mathlib

/-!
Verification of the prisma-mongo-migrator core pipeline: a shallow embedding
of the schema parser (src/parsers/prisma.parser.ts), the JSON-schema
generator (src/generators/json-schema.generator.ts) and the backfill engine
(src/services/backfill.service.ts), with theorems settling the stated
claims about them.  Strings are modelled as lists of characters; the
JavaScript regular expressions of the source are embedded as the
deterministic scanning functions they denote on their (backtracking-free)
patterns.  JavaScript numbers are modelled exactly: integer literals as
naturals, decimal literals by their rational value.
-/

namespace PMM

/-- JavaScript regex word character, the `\w` class: ASCII letters, digits
and underscore. -/
def isWordChar (c : Char) : Bool :=
  c.isAlpha || c.isDigit || c = '_'

/-- JavaScript whitespace (`\s` class and `String.prototype.trim`),
restricted to the ASCII whitespace characters that can occur in schema
text. -/
def isJsSpace (c : Char) : Bool :=
  c = ' ' || c = '\t' || c = '\n' || c = '\r' || c = '\x0b' || c = '\x0c'

/-- Embedding of `String.prototype.trim`: strip leading and trailing whitespace. -/
def jsTrim (cs : List Char) : List Char :=
  ((cs.dropWhile isJsSpace).reverse.dropWhile isJsSpace).reverse

/-- Embedding of `String.prototype.split("\n")`: split on newline characters, keeping
empty segments, as the JavaScript method does. -/
def splitLines : List Char → List (List Char)
  | [] => [[]]
  | c :: rest =>
    if c = '\n' then [] :: splitLines rest
    else
      match splitLines rest with
      | l :: ls => (c :: l) :: ls
      | [] => [[c]]

/-- Embedding of `String.prototype.split(/\s+/)` followed by keeping only nonempty
tokens: the maximal whitespace-free runs, in order.  (The JavaScript call
can also yield empty-string entries at the ends; every use in the source
immediately filters the result by a nonempty prefix, so the empties are
unobservable.) -/
def splitWsCore : List Char → List Char → List (List Char)
  | [], acc => if acc = [] then [] else [acc.reverse]
  | c :: rest, acc =>
    if isJsSpace c then
      if acc = [] then splitWsCore rest []
      else acc.reverse :: splitWsCore rest []
    else splitWsCore rest (c :: acc)

def splitWs (cs : List Char) : List (List Char) :=
  splitWsCore cs []

/-- Value of an all-digit run under `parseInt(s, 10)`. -/
def digitsToNat (cs : List Char) : Nat :=
  cs.foldl (fun acc c => acc * 10 + (c.toNat - 48)) 0

/-- A JavaScript value as produced by `parseDefaultValue`: string, boolean,
integer literal or decimal literal (kept as its exact rational value). -/
inductive JsValue where
  | str (s : String)
  | bool (b : Bool)
  | int (n : Nat)
  | float (q : Rat)
deriving DecidableEq, Repr

/-- A parsed Prisma field (src/types, interface PrismaField). -/
structure PrismaField where
  name : String
  type : String
  isOptional : Bool
  isArray : Bool
  defaultValue : Option JsValue
  isId : Bool
  isUnique : Bool
  attributes : List String
deriving DecidableEq, Repr

/-- A parsed Prisma model (src/types, interface PrismaModel). -/
structure PrismaModel where
  name : String
  fields : List PrismaField
  mapName : Option String
deriving DecidableEq, Repr

/-- A parsed Prisma enum (src/types, interface PrismaEnum). -/
structure PrismaEnum where
  name : String
  values : List String
deriving DecidableEq, Repr

/-- The parsed schema (src/types, interface PrismaSchema). -/
structure PrismaSchema where
  models : List PrismaModel
  enums : List PrismaEnum
deriving DecidableEq, Repr

/-- Embedding of `PrismaSchemaParser.parseDefaultValue`: resolve the payload of an
`@default(...)` attribute.  `none` models the JavaScript `undefined`
returned for function-style payloads. -/
def parseDefaultValueCore (raw : List Char) : Option JsValue :=
  let s := jsTrim raw
  if ['\x22'].isPrefixOf s && ['\x22'].isPrefixOf s.reverse then
    some (.str ((s.drop 1).dropLast).asString)
  else if s = "true".data then some (.bool true)
  else if s = "false".data then some (.bool false)
  else if s ≠ [] && s.all Char.isDigit then some (.int (digitsToNat s))
  else if decimalShape s then
    some (.float (decimalValue s))
  else if !s.contains '(' then some (.str s.asString)
  else none
where
  /-- The `/^\d+\.\d+$/` test: one or more digits, a dot, one or more
  digits. -/
  decimalShape (s : List Char) : Bool :=
    let a := s.takeWhile Char.isDigit
    let r := s.dropWhile Char.isDigit
    a ≠ [] &&
      (match r with
       | '.' :: b => b ≠ [] && b.all Char.isDigit
       | _ => false)
  /-- `parseFloat` on a `\d+.\d+` literal, as its exact rational value. -/
  decimalValue (s : List Char) : Rat :=
    let a := s.takeWhile Char.isDigit
    let r := s.dropWhile Char.isDigit
    let b := r.drop 1
    (digitsToNat a : Rat) + (digitsToNat b : Rat) / ((10 : Rat) ^ b.length)

def parseDefaultValue (s : String) : Option JsValue :=
  parseDefaultValueCore s.data

/-- One step of the block regexes `model\s+\w+\s*\{[^}]*\}` and
`enum\s+\w+\s*\{[^}]*\}`: attempt a match anchored at the head of `cs`.
On these patterns the JavaScript engine is deterministic (each greedy run
is followed by a character disjoint from its class), so the match, when it
exists, is the literal keyword, a nonempty whitespace run, a nonempty word
run, a whitespace run, `\x7b`, the run of non-`\x7d` characters and the
closing `\x7d`.  Returns the matched block and the remaining input. -/
def matchBlockAt (keyword : List Char) (cs : List Char) : Option (List Char × List Char) :=
  if keyword.isPrefixOf cs then
    let r0 := cs.drop keyword.length
    let sp1 := r0.takeWhile isJsSpace
    let r1 := r0.dropWhile isJsSpace
    if sp1 = [] then none
    else
      let w := r1.takeWhile isWordChar
      let r2 := r1.dropWhile isWordChar
      if w = [] then none
      else
        let sp2 := r2.takeWhile isJsSpace
        let r3 := r2.dropWhile isJsSpace
        match r3 with
        | '\x7b' :: r4 =>
          let body := r4.takeWhile (fun c => c ≠ '\x7d')
          (match r4.dropWhile (fun c => c ≠ '\x7d') with
           | '\x7d' :: rest =>
             some (keyword ++ sp1 ++ w ++ sp2 ++ '\x7b' :: (body ++ ['\x7d']), rest)
           | _ => none)
        | _ => none
  else none

/-- Embedding of `String.prototype.match(regex)` with the `g` flag: scan left to right,
taking each leftmost match and continuing after its end (fuelled by the
input length, which bounds the number of scan steps). -/
def scanBlocksAux (keyword : List Char) : Nat → List Char → List (List Char)
  | 0, _ => []
  | _, [] => []
  | Nat.succ fuel, c :: rest =>
    match matchBlockAt keyword (c :: rest) with
    | some (blk, tail) => blk :: scanBlocksAux keyword fuel tail
    | none => scanBlocksAux keyword fuel rest

def scanBlocks (keyword : List Char) (cs : List Char) : List (List Char) :=
  scanBlocksAux keyword cs.length cs

/-- The name regexes `/model\s+(\w+)/` and `/enum\s+(\w+)/`: first position
where the keyword is followed by at least one whitespace and a word run;
yields the word run (the captured name). -/
def nameAfterKeyword (keyword : List Char) : List Char → Option (List Char)
  | [] => none
  | c :: rest =>
    match
      (if keyword.isPrefixOf (c :: rest) then
        let r0 := (c :: rest).drop keyword.length
        let sp := r0.takeWhile isJsSpace
        let r1 := r0.dropWhile isJsSpace
        let w := r1.takeWhile isWordChar
        if sp ≠ [] && w ≠ [] then some w else none
      else none) with
    | some w => some w
    | none => nameAfterKeyword keyword rest

/-- Strip one trailing comma: `line.replace(/,$/, "")`. -/
def stripTrailingComma (l : List Char) : List Char :=
  match l.getLast? with
  | some ',' => l.dropLast
  | _ => l

/-- Embedding of `PrismaSchemaParser.parseEnumBlock`: the name is the first word after
`enum`; the values are the trimmed nonempty lines not starting with
`enum`, `\x7b` or `\x7d`, each with one trailing comma stripped. -/
def parseEnumBlockCore (blk : List Char) : Option PrismaEnum :=
  match nameAfterKeyword "enum".data blk with
  | none => none
  | some nm =>
    let values := (((splitLines blk).map jsTrim).filter (fun l =>
        l ≠ [] && !("enum".data.isPrefixOf l) && !(['\x7b'].isPrefixOf l)
          && !(['\x7d'].isPrefixOf l))).map
      (fun l => (stripTrailingComma l).asString)
    some { name := nm.asString, values }

/-- The `/@@map\s*\(\s*"([^"]+)"\s*\)/` match attempted at the head of the
input. -/
def matchMapAt (cs : List Char) : Option (List Char) :=
  if "@@map".data.isPrefixOf cs then
    match (cs.drop 5).dropWhile isJsSpace with
    | '(' :: r1 =>
      (match r1.dropWhile isJsSpace with
       | '\x22' :: r2 =>
         let v := r2.takeWhile (fun c => c ≠ '\x22')
         if v = [] then none
         else
           (match r2.dropWhile (fun c => c ≠ '\x22') with
            | '\x22' :: r3 =>
              (match r3.dropWhile isJsSpace with
               | ')' :: _ => some v
               | _ => none)
            | _ => none)
       | _ => none)
    | _ => none
  else none

/-- First `@@map("X")` directive of a block, if any. -/
def findMapName : List Char → Option String
  | [] => none
  | c :: rest =>
    match matchMapAt (c :: rest) with
    | some v => some v.asString
    | none => findMapName rest

/-- The `/@default\(([^)]+)\)/` match attempted at the head of the input:
the literal `@default(`, a nonempty run of non-`)` characters, then `)`. -/
def matchDefaultAt (cs : List Char) : Option (List Char) :=
  if "@default(".data.isPrefixOf cs then
    let after := cs.drop 9
    let p := after.takeWhile (fun c => c ≠ ')')
    if p = [] then none
    else
      match after.dropWhile (fun c => c ≠ ')') with
      | ')' :: _ => some p
      | _ => none
  else none

/-- First `@default(...)` payload of the attribute text, if any. -/
def findDefaultPayload : List Char → Option (List Char)
  | [] => none
  | c :: rest =>
    match matchDefaultAt (c :: rest) with
    | some p => some p
    | none => findDefaultPayload rest

/-- The field-line regex `/^(\w+)\s+(\w+(?:\[\])?)\??\s*(.*)/` and the rest
of `PrismaSchemaParser.parseFieldLine`.  On success the regex yields the
name, the type-with-array marker and the attribute remainder; every greedy
run of the pattern is followed by a disjoint character class, so the
JavaScript match is this deterministic scan.  The optional flag tests for
`?` anywhere on the whole line, as the source does. -/
def parseFieldLineCore (line : List Char) : Option PrismaField :=
  let name := line.takeWhile isWordChar
  let r1 := line.dropWhile isWordChar
  if name = [] then none
  else
    let sp := r1.takeWhile isJsSpace
    let r2 := r1.dropWhile isJsSpace
    if sp = [] then none
    else
      let tw := r2.takeWhile isWordChar
      let r3 := r2.dropWhile isWordChar
      if tw = [] then none
      else
        let (typeWithArray, r4) :=
          match r3 with
          | '[' :: ']' :: t => (tw ++ ['[', ']'], t)
          | t => (tw, t)
        let r5 :=
          match r4 with
          | '?' :: t => t
          | t => t
        let attributesStr := r5.dropWhile isJsSpace
        let isArray := [']', '['].isPrefixOf typeWithArray.reverse
        let ty := if isArray then typeWithArray.dropLast.dropLast else typeWithArray
        let attributes := ((splitWs attributesStr).filter
          (fun t => ['@'].isPrefixOf t)).map List.asString
        let defaultValue :=
          match findDefaultPayload attributesStr with
          | some p => parseDefaultValueCore p
          | none => none
        some {
          name := name.asString
          type := ty.asString
          isOptional := line.contains '?'
          isArray := isArray
          defaultValue := defaultValue
          isId := attributes.any (fun a => a.startsWith "@id")
          isUnique := attributes.any (fun a => a.startsWith "@unique")
          attributes := attributes }

/-- The line filter of `PrismaSchemaParser.parseFields`: trimmed lines of
the block that are nonempty and do not start with `model`, `\x7b` or
`\x7d`. -/
def fieldCandidateLines (blk : List Char) : List (List Char) :=
  ((splitLines blk).map jsTrim).filter (fun l =>
    l ≠ [] && !("model".data.isPrefixOf l) && !(['\x7b'].isPrefixOf l)
      && !(['\x7d'].isPrefixOf l))

/-- Embedding of `PrismaSchemaParser.parseFields`: comment and block-directive lines are
skipped, every other candidate line is parsed, and lines that fail to
parse contribute nothing. -/
def parseFieldsCore (blk : List Char) : List PrismaField :=
  (fieldCandidateLines blk).filterMap (fun l =>
    if "//".data.isPrefixOf l || "@@".data.isPrefixOf l then none
    else parseFieldLineCore l)

/-- Embedding of `PrismaSchemaParser.parseModelBlock`. -/
def parseModelBlockCore (blk : List Char) : Option PrismaModel :=
  match nameAfterKeyword "model".data blk with
  | none => none
  | some nm =>
    some { name := nm.asString, fields := parseFieldsCore blk
           mapName := findMapName blk }

/-- Embedding of `PrismaSchemaParser.extractEnums`. -/
def extractEnumsCore (cs : List Char) : List PrismaEnum :=
  (scanBlocks "enum".data cs).filterMap parseEnumBlockCore

/-- Embedding of `PrismaSchemaParser.extractModels`. -/
def extractModelsCore (cs : List Char) : List PrismaModel :=
  (scanBlocks "model".data cs).filterMap parseModelBlockCore

/-- Embedding of `PrismaSchemaParser.parse`: a total function of the schema text. -/
def parse (s : String) : PrismaSchema :=
  { models := extractModelsCore s.data, enums := extractEnumsCore s.data }

/-- Embedding of `PrismaSchemaParser.isEnum` / `JsonSchemaGenerator.isEnum`. -/
def isEnum (schema : PrismaSchema) (typeName : String) : Bool :=
  schema.enums.any (fun e => e.name = typeName)

/-- Embedding of `PrismaSchemaParser.isModel` / `JsonSchemaGenerator.isModel`. -/
def isModel (schema : PrismaSchema) (typeName : String) : Bool :=
  schema.models.any (fun m => m.name = typeName)

/-- The item descriptor of an array property (src/types,
`items?: \x7b type: string \x7d`). -/
structure ItemSpec where
  type : String
deriving DecidableEq, Repr

/-- A generated JSON-schema property (src/types, interface
JsonSchemaProperty). -/
structure JsonSchemaProperty where
  type : String
  default : Option JsValue := none
  items : Option ItemSpec := none
  format : Option String := none
  enum : Option (List String) := none
deriving DecidableEq, Repr

/-- A generated JSON schema (src/types, interface JsonSchema).  The
`properties` object is modelled as its ordered list of key/property
entries. -/
structure JsonSchema where
  type : String
  properties : List (String × JsonSchemaProperty)
  required : List String
deriving DecidableEq, Repr

/-- Embedding of `JsonSchemaGenerator.mapPrismaTypeToJsonSchema`: the fixed primitive
table, then the enum and model catalogs, then the defensive `string`
fallback. -/
def mapPrismaTypeToJsonSchema (schema : PrismaSchema) (prismaType : String) : String :=
  if prismaType = "String" then "string"
  else if prismaType = "Int" then "number"
  else if prismaType = "Float" then "number"
  else if prismaType = "Boolean" then "boolean"
  else if prismaType = "DateTime" then "string"
  else if prismaType = "Json" then "object"
  else if prismaType = "Bytes" then "string"
  else if isEnum schema prismaType then "string"
  else if isModel schema prismaType then "object"
  else "string"

/-- Embedding of `JsonSchemaGenerator.convertFieldToJsonSchema`. -/
def convertFieldToJsonSchema (schema : PrismaSchema) (field : PrismaField) : JsonSchemaProperty :=
  let baseType := mapPrismaTypeToJsonSchema schema field.type
  let p0 : JsonSchemaProperty := { type := baseType }
  let p1 :=
    if field.isArray then
      { p0 with type := "array"
                items := some ⟨mapPrismaTypeToJsonSchema schema field.type⟩ }
    else p0
  let p2 :=
    match field.defaultValue with
    | some d => { p1 with default := some d }
    | none => p1
  let p3 :=
    if field.type = "DateTime" then { p2 with format := some "date-time" }
    else p2
  if isEnum schema field.type then
    match schema.enums.find? (fun e => e.name = field.type) with
    | some e => { p3 with enum := some e.values }
    | none => p3
  else p3

/-- Assignment `properties[field.name] = property` on a JavaScript object:
an existing key keeps its position and gets the new value, a new key is
appended. -/
def upsertProp (props : List (String × JsonSchemaProperty)) (k : String)
    (v : JsonSchemaProperty) : List (String × JsonSchemaProperty) :=
  if props.any (fun p => p.1 = k) then
    props.map (fun p => if p.1 = k then (k, v) else p)
  else props ++ [(k, v)]

/-- One iteration of the field loop of `JsonSchemaGenerator.generateSchema`:
identity fields are skipped entirely; every other field is inserted into
the property map, and pushed onto the required list when it is not
optional, has no default and is not an array. -/
def generateStep (schema : PrismaSchema)
    (acc : List (String × JsonSchemaProperty) × List String)
    (field : PrismaField) : List (String × JsonSchemaProperty) × List String :=
  if field.isId then acc
  else
    (upsertProp acc.1 field.name (convertFieldToJsonSchema schema field),
     if !field.isOptional && field.defaultValue = none && !field.isArray then
       acc.2 ++ [field.name]
     else acc.2)

/-- Embedding of `JsonSchemaGenerator.generateSchema`. -/
def generateSchema (schema : PrismaSchema) (model : PrismaModel) : JsonSchema :=
  let acc := model.fields.foldl (generateStep schema) ([], [])
  { type := "object", properties := acc.1, required := acc.2 }

/-- A value stored in a document field: `null`, the (deprecated) BSON
`undefined`, or an ordinary value.  `0`, `false` and the empty string are
ordinary values: only `null`/`undefined` (or a missing key) count as a gap
for the backfill. -/
inductive BValue where
  | null
  | undef
  | val (v : JsValue)
deriving DecidableEq, Repr

/-- A stored document: its ordered field/value entries. -/
abbrev Doc := List (String × BValue)

/-- Keyed field access `doc[fieldName]` (`none` when `hasOwnProperty` is
false). -/
def docGet : Doc → String → Option BValue
  | [], _ => none
  | p :: d, k => if p.1 = k then some p.2 else docGet d k

/-- The gap test of the backfill loop:
`!doc.hasOwnProperty(f) || doc[f] === null || doc[f] === undefined`. -/
def fieldMissing (doc : Doc) (k : String) : Bool :=
  match docGet doc k with
  | none => true
  | some .null => true
  | some .undef => true
  | some (.val _) => false

/-- The update document computed for one record by
`MongoBackfillService.backfillCollection`: exactly the schema properties
that carry a default and are missing/null/undefined in the record. -/
def computeUpdate (props : List (String × JsonSchemaProperty)) (doc : Doc) :
    List (String × JsValue) :=
  props.filterMap (fun kp =>
    match kp.2.default with
    | some d => if fieldMissing doc kp.1 then some (kp.1, d) else none
    | none => none)

/-- A single `$set` of one field: replace the value in place when the key
exists, append otherwise. -/
def setField : Doc → String → BValue → Doc
  | [], k, v => [(k, v)]
  | p :: d, k, v => if p.1 = k then (k, v) :: d else p :: setField d k v

/-- The merge `updateOne` performs (a `$set` keyed by identity) applied to the
record: a field-level merge of the update document. -/
def applyUpdate (doc : Doc) (upd : List (String × JsValue)) : Doc :=
  upd.foldl (fun d kv => setField d kv.1 (BValue.val kv.2)) doc

/-- The document stream loop: each record with a nonempty update document
is merged and counted, the rest are left as they are.  Returns the new
collection contents and the number of records modified. -/
def backfillDocs (props : List (String × JsonSchemaProperty)) :
    List Doc → List Doc × Nat
  | [] => ([], 0)
  | d :: ds =>
    let u := computeUpdate props d
    let r := backfillDocs props ds
    if u = [] then (d :: r.1, r.2) else (applyUpdate d u :: r.1, r.2 + 1)

/-- The document store: its named collections. -/
structure Store where
  collections : List (String × List Doc)
deriving DecidableEq, Repr

/-- The index-metadata probe of `getCollection`: it answers successfully
exactly when the collection exists in the store. -/
def storeGet (store : Store) (name : String) : Option (List Doc) :=
  (store.collections.find? (fun p => p.1 = name)).map Prod.snd

/-- Replace the contents of an existing collection. -/
def storeSet (store : Store) (name : String) (docs : List Doc) : Store :=
  ⟨store.collections.map (fun p => if p.1 = name then (name, docs) else p)⟩

/-- Embedding of `name.toLowerCase()` (ASCII). -/
def lowerStr (s : String) : String :=
  (s.data.map Char.toLower).asString

/-- Modelled from the spec: the external `change-case-all` `kebabCase`
dependency is not part of the repository; the glossary defines kebab-case
as the hyphen-separated lowercase word form, with a word break at each
capital letter. -/
def kebabCase (s : String) : String :=
  match s.data with
  | [] => ""
  | c :: rest => (c.toLower :: kebabAux rest).asString
where
  kebabAux : List Char → List Char
    | [] => []
    | c :: rest =>
      (if c.isUpper then ['-', c.toLower] else [c]) ++ kebabAux rest

/-- Modelled from the spec: the external `pluralize` dependency is not part
of the repository; the spec uses only its regular-noun behavior
(`user-profile` to `user-profiles`), modelled as appending `s` to a word
that does not already end in `s`. -/
def pluralizeWord (s : String) : String :=
  if s.data.getLast? = some 's' then s else s ++ "s"

/-- Embedding of `[...new Set(attempts)]`: de-duplication keeping the first occurrence
of each name, in order. -/
def dedupFirst : List String → List String :=
  go []
where
  go (seen : List String) : List String → List String
    | [] => []
    | x :: xs => if x ∈ seen then go seen xs else x :: go (x :: seen) xs

/-- The candidate-name list of `MongoBackfillService.getCollection`: the
explicit `@@map` override (or the model name), its lowercase form, the
pluralized forms of both, the kebab-case form and its plural, de-duplicated
keeping first occurrences. -/
def collectionCandidates (model : PrismaModel) : List String :=
  let collectionName := model.mapName.getD model.name
  dedupFirst [collectionName,
    lowerStr collectionName,
    pluralizeWord collectionName,
    pluralizeWord (lowerStr collectionName),
    kebabCase collectionName,
    pluralizeWord (kebabCase collectionName)]

/-- Embedding of `MongoBackfillService.getCollection`: probe the candidates in order and
select the first whose index-metadata probe succeeds. -/
def getCollection (store : Store) (model : PrismaModel) : Option String :=
  (collectionCandidates model).find? (fun n => (storeGet store n).isSome)

/-- The `fieldsWithDefaults` filter at the top of `backfillCollection`. -/
def fieldsWithDefaults (schema : JsonSchema) : List (String × JsonSchemaProperty) :=
  schema.properties.filter (fun kp => kp.2.default ≠ none)

/-- Outcome of one `backfillCollection` call. -/
inductive BackfillOutcome where
  | skippedNoDefaults
  | collectionNotFound
  | completed (modifiedCount : Nat)
deriving DecidableEq, Repr

/-- The number of records a call reported as modified. -/
def modifiedOf : BackfillOutcome → Nat
  | .completed n => n
  | _ => 0

/-- Embedding of `MongoBackfillService.backfillCollection` (store transition): skip when
no property carries a default, resolve the collection, stream and merge
every record, and report the modified count. -/
def backfillCollection (model : PrismaModel) (schema : JsonSchema)
    (store : Store) : Store × BackfillOutcome :=
  if fieldsWithDefaults schema = [] then (store, .skippedNoDefaults)
  else
    match getCollection store model with
    | none => (store, .collectionNotFound)
    | some cname =>
      match storeGet store cname with
      | none => (store, .collectionNotFound)
      | some docs =>
        let r := backfillDocs schema.properties docs
        (storeSet store cname r.1, .completed r.2)

/-- How one `backfillCollection` call ended, for the connection-lifecycle
analysis: the early skip (before any connection), the not-found path, the
normal completion, or an error raised by an `updateOne` mid-stream that
propagates out of the method. -/
inductive RunExit where
  | skippedNoDefaults
  | collectionNotFound
  | finished (modifiedCount : Nat)
  | updateErrorRaised
deriving DecidableEq, Repr

/-- Trace of one call: how it exited, whether `client.connect()` ran, and
whether `client.close()` ran before the call ended. -/
structure RunTrace where
  exitKind : RunExit
  connOpened : Bool
  connClosed : Bool
deriving DecidableEq, Repr

/-- The stream loop with fault injection: `updateOk i` says whether the
i-th `updateOne` call succeeds.  A failing update raises: the update is
not applied, the remaining records are not visited, and the error
propagates (third component `true`).  Earlier merges stay applied: each
update is an independent store-level operation. -/
def streamDocs (props : List (String × JsonSchemaProperty)) (updateOk : Nat → Bool) :
    List Doc → Nat → List Doc × Nat × Bool
  | [], _ => ([], 0, false)
  | d :: ds, i =>
    let u := computeUpdate props d
    if u = [] then
      let (ds', n, err) := streamDocs props updateOk ds i
      (d :: ds', n, err)
    else if updateOk i then
      let (ds', n, err) := streamDocs props updateOk ds (i + 1)
      (applyUpdate d u :: ds', n + 1, err)
    else (d :: ds, 0, true)

/-- Embedding of `MongoBackfillService.backfillCollection` with its connection lifecycle
made explicit, mirroring the source line by line: the method returns before
`connect()` when nothing carries a default; `close()` is called on the
not-found path and after the stream loop; an error thrown by an
`updateOne` inside the loop propagates out of the method without reaching
either `close()` call. -/
def backfillRun (model : PrismaModel) (schema : JsonSchema) (store : Store)
    (updateOk : Nat → Bool) : RunTrace × Store :=
  if fieldsWithDefaults schema = [] then
    (⟨.skippedNoDefaults, false, false⟩, store)
  else
    match getCollection store model with
    | none => (⟨.collectionNotFound, true, true⟩, store)
    | some cname =>
      match storeGet store cname with
      | none => (⟨.collectionNotFound, true, true⟩, store)
      | some docs =>
        let r := streamDocs schema.properties updateOk docs 0
        if r.2.2 then (⟨.updateErrorRaised, true, false⟩, storeSet store cname r.1)
        else (⟨.finished r.2.1, true, true⟩, storeSet store cname r.1)

/-! ## Helper lemmas -/

theorem foldl_generateStep_snd (schema : PrismaSchema) :
    ∀ (fields : List PrismaField)
      (acc : List (String × JsonSchemaProperty) × List String),
      (fields.foldl (generateStep schema) acc).2
        = acc.2 ++ (fields.filter (fun f =>
            !f.isId && !f.isOptional && f.defaultValue = none && !f.isArray)).map
              PrismaField.name
  | [], acc => by simp
  | f :: fs, acc => by
    rw [List.foldl_cons, foldl_generateStep_snd schema fs, List.filter_cons]
    unfold generateStep
    by_cases hid : f.isId = true
    · simp [hid]
    · simp only [Bool.not_eq_true] at hid
      by_cases hc : (!f.isOptional && decide (f.defaultValue = none) && !f.isArray) = true
      · simp [hid, hc]
      · simp [hid, hc]

theorem mem_keys_upsertProp {ps : List (String × JsonSchemaProperty)}
    {k k' : String} {v : JsonSchemaProperty}
    (h : k' ∈ (upsertProp ps k v).map Prod.fst) :
    k' ∈ ps.map Prod.fst ∨ k' = k := by
  unfold upsertProp at h
  by_cases hex : ps.any (fun p => p.1 = k) = true
  · rw [if_pos hex, List.map_map] at h
    obtain ⟨p, hp, hpk⟩ := List.mem_map.mp h
    by_cases hk : p.1 = k
    · right
      simpa [Function.comp, hk] using hpk.symm
    · left
      simp only [Function.comp, hk, if_neg] at hpk
      exact hpk ▸ List.mem_map_of_mem Prod.fst hp
  · rw [if_neg hex, List.map_append] at h
    rcases List.mem_append.mp h with h1 | h2
    · exact Or.inl h1
    · right
      simpa using h2

theorem mem_keys_foldl_props (schema : PrismaSchema) :
    ∀ (fields : List PrismaField)
      (acc : List (String × JsonSchemaProperty) × List String) (k : String),
      k ∈ ((fields.foldl (generateStep schema) acc).1.map Prod.fst) →
        k ∈ acc.1.map Prod.fst ∨ ∃ g ∈ fields, g.isId = false ∧ g.name = k
  | [], acc, k => by simp
  | f :: fs, acc, k => by
    intro h
    rw [List.foldl_cons] at h
    rcases mem_keys_foldl_props schema fs (generateStep schema acc f) k h with h1 | h2
    · unfold generateStep at h1
      by_cases hid : f.isId = true
      · rw [if_pos hid] at h1
        exact Or.inl h1
      · simp only [Bool.not_eq_true] at hid
        rw [if_neg (by simp [hid])] at h1
        rcases mem_keys_upsertProp h1 with ha | hb
        · exact Or.inl ha
        · exact Or.inr ⟨f, List.mem_cons_self f fs, hid, hb.symm⟩
    · obtain ⟨g, hg, hgp⟩ := h2
      exact Or.inr ⟨g, List.mem_cons_of_mem f hg, hgp⟩

theorem field_eq_of_name_eq {fields : List PrismaField}
    (h : (fields.map PrismaField.name).Nodup) {f g : PrismaField}
    (hf : f ∈ fields) (hg : g ∈ fields) (hn : f.name = g.name) : f = g :=
  List.inj_on_of_nodup_map h hf hg hn

/-! ## C1: required-field characterization -/

/-- C1.  For every record type, the generated required list is exactly the
names of the non-identity fields that are not optional, have no resolved
default and are not arrays, in field declaration order; consequently (for
models with unique field names, the stated invariant) a non-identity
field's name appears in the required list iff the field is not optional,
default-free and not an array. -/
theorem required_fields_characterization (schema : PrismaSchema)
    (model : PrismaModel) (h : (model.fields.map PrismaField.name).Nodup) :
    (generateSchema schema model).required
        = (model.fields.filter (fun f =>
            !f.isId && !f.isOptional && f.defaultValue = none && !f.isArray)).map
              PrismaField.name
    ∧ ∀ f ∈ model.fields, f.isId = false →
        (f.name ∈ (generateSchema schema model).required ↔
          (f.isOptional = false ∧ f.defaultValue = none ∧ f.isArray = false)) := by
  have hreq : (generateSchema schema model).required
      = (model.fields.filter (fun f =>
          !f.isId && !f.isOptional && f.defaultValue = none && !f.isArray)).map
            PrismaField.name := by
    unfold generateSchema
    simpa using foldl_generateStep_snd schema model.fields ([], [])
  refine ⟨hreq, ?_⟩
  intro f hf hid
  rw [hreq]
  constructor
  · intro hmem
    obtain ⟨g, hgf, hgn⟩ := List.mem_map.mp hmem
    obtain ⟨hgmem, hgpred⟩ := List.mem_filter.mp hgf
    have : g = f := field_eq_of_name_eq h hgmem hf hgn
    subst this
    simpa [hid, and_assoc] using hgpred
  · intro ⟨h1, h2, h3⟩
    exact List.mem_map_of_mem PrismaField.name
      (List.mem_filter.mpr ⟨hf, by simp [hid, h1, h2, h3]⟩)

theorem required_fields_characterization_witness :
    (((PrismaModel.mk "User"
        [⟨"id", "String", false, false, none, true, false, ["@id"]⟩,
         ⟨"email", "String", false, false, none, false, false, []⟩,
         ⟨"isActive", "Boolean", false, false, some (.bool true), false, false, []⟩,
         ⟨"tags", "String", false, true, none, false, false, []⟩]
        none).fields.map PrismaField.name).Nodup)
    ∧ (generateSchema ⟨[], []⟩
        (PrismaModel.mk "User"
          [⟨"id", "String", false, false, none, true, false, ["@id"]⟩,
           ⟨"email", "String", false, false, none, false, false, []⟩,
           ⟨"isActive", "Boolean", false, false, some (.bool true), false, false, []⟩,
           ⟨"tags", "String", false, true, none, false, false, []⟩]
          none)).required = ["email"] :=
  ⟨by decide,
   by
    rw [(required_fields_characterization ⟨[], []⟩ _ (by decide)).1]
    decide⟩

/-! ## C6: identity fields are excluded -/

/-- C6.  For a record type with unique field names (the stated invariant),
no field carrying the identity flag appears in the generated validation
schema: its name is neither a key of the properties map nor an entry of
the required list. -/
theorem id_fields_never_in_schema (schema : PrismaSchema) (model : PrismaModel)
    (h : (model.fields.map PrismaField.name).Nodup) :
    ∀ f ∈ model.fields, f.isId = true →
      f.name ∉ (generateSchema schema model).properties.map Prod.fst
      ∧ f.name ∉ (generateSchema schema model).required := by
  intro f hf hid
  constructor
  · intro hmem
    unfold generateSchema at hmem
    rcases mem_keys_foldl_props schema model.fields ([], []) f.name hmem with h1 | h2
    · simp at h1
    · obtain ⟨g, hg, hgid, hgnm⟩ := h2
      have : g = f := field_eq_of_name_eq h hg hf hgnm
      subst this
      rw [hid] at hgid
      exact Bool.noConfusion hgid
  · intro hmem
    have hreq : (generateSchema schema model).required
        = (model.fields.filter (fun f =>
            !f.isId && !f.isOptional && f.defaultValue = none && !f.isArray)).map
              PrismaField.name := by
      unfold generateSchema
      simpa using foldl_generateStep_snd schema model.fields ([], [])
    rw [hreq] at hmem
    obtain ⟨g, hgf, hgn⟩ := List.mem_map.mp hmem
    obtain ⟨hgmem, hgpred⟩ := List.mem_filter.mp hgf
    have : g = f := field_eq_of_name_eq h hgmem hf hgn
    subst this
    simp [hid] at hgpred

theorem id_fields_never_in_schema_witness :
    (((PrismaModel.mk "User"
        [⟨"id", "String", false, false, none, true, false, ["@id"]⟩,
         ⟨"email", "String", false, false, none, false, false, []⟩]
        none).fields.map PrismaField.name).Nodup)
    ∧ ("id" ∉ (generateSchema ⟨[], []⟩
          (PrismaModel.mk "User"
            [⟨"id", "String", false, false, none, true, false, ["@id"]⟩,
             ⟨"email", "String", false, false, none, false, false, []⟩]
            none)).properties.map Prod.fst
        ∧ "id" ∉ (generateSchema ⟨[], []⟩
          (PrismaModel.mk "User"
            [⟨"id", "String", false, false, none, true, false, ["@id"]⟩,
             ⟨"email", "String", false, false, none, false, false, []⟩]
            none)).required) :=
  ⟨by decide,
   id_fields_never_in_schema ⟨[], []⟩ _ (by decide)
     ⟨"id", "String", false, false, none, true, false, ["@id"]⟩
     (by decide) (by decide)⟩

/-! ## Backfill lemmas -/

theorem docGet_setField_self (d : Doc) (k : String) (v : BValue) :
    docGet (setField d k v) k = some v := by
  induction d with
  | nil => simp [setField, docGet]
  | cons p d ih =>
    by_cases h : p.1 = k
    · simp [setField, docGet, h]
    · simp [setField, docGet, h, ih]

theorem docGet_setField_other (d : Doc) {k k' : String} (v : BValue)
    (h : k' ≠ k) : docGet (setField d k v) k' = docGet d k' := by
  have h' : k ≠ k' := Ne.symm h
  induction d with
  | nil => simp [setField, docGet, h']
  | cons p d ih =>
    by_cases hp : p.1 = k
    · have hp' : p.1 ≠ k' := fun hpk => h' (hp ▸ hpk)
      simp [setField, hp, docGet, h', hp']
    · by_cases hp' : p.1 = k'
      · simp [setField, hp, docGet, hp', h]
      · simp [setField, hp, docGet, hp', ih]

theorem docGet_applyUpdate_of_not_mem {k : String} :
    ∀ (u : List (String × JsValue)) (d : Doc),
      (∀ v, (k, v) ∉ u) → docGet (applyUpdate d u) k = docGet d k
  | [], d, _ => rfl
  | kv :: u, d, h => by
    have hk : k ≠ kv.1 := by
      intro he
      exact h kv.2 (he ▸ (by simp : (kv.1, kv.2) ∈ kv :: u))
    rw [applyUpdate, List.foldl_cons,
      show (u.foldl (fun d kv => setField d kv.1 (BValue.val kv.2))
          (setField d kv.1 (BValue.val kv.2)))
        = applyUpdate (setField d kv.1 (BValue.val kv.2)) u from rfl,
      docGet_applyUpdate_of_not_mem u _ (fun v hv => h v (List.mem_cons_of_mem kv hv)),
      docGet_setField_other _ _ hk]

theorem docGet_applyUpdate_of_mem {k : String} :
    ∀ (u : List (String × JsValue)) (d : Doc),
      (∃ v, (k, v) ∈ u) →
        ∃ w, docGet (applyUpdate d u) k = some (BValue.val w)
  | [], _, h => by simp at h
  | kv :: u, d, h => by
    rw [applyUpdate, List.foldl_cons,
      show (u.foldl (fun d kv => setField d kv.1 (BValue.val kv.2))
          (setField d kv.1 (BValue.val kv.2)))
        = applyUpdate (setField d kv.1 (BValue.val kv.2)) u from rfl]
    by_cases hu : ∃ v, (k, v) ∈ u
    · exact docGet_applyUpdate_of_mem u _ hu
    · obtain ⟨v, hv⟩ := h
      have hk : k = kv.1 := by
        rcases List.mem_cons.mp hv with he | hm
        · exact congrArg Prod.fst he
        · exact absurd ⟨v, hm⟩ hu
      refine ⟨kv.2, ?_⟩
      rw [docGet_applyUpdate_of_not_mem u _ (fun v hv => hu ⟨v, hv⟩), hk,
        docGet_setField_self]

theorem fieldMissing_eq_false_iff (d : Doc) (k : String) :
    fieldMissing d k = false ↔ ∃ x, docGet d k = some (BValue.val x) := by
  unfold fieldMissing
  match h : docGet d k with
  | none => simp
  | some .null => simp
  | some .undef => simp
  | some (.val x) => simp

/-- After the merge computed for a record is applied, the record has no
remaining gap among the defaulted fields: the update recomputed for the
merged record is empty. -/
theorem computeUpdate_applyUpdate_computeUpdate
    (props : List (String × JsonSchemaProperty)) (d : Doc) :
    computeUpdate props (applyUpdate d (computeUpdate props d)) = [] := by
  refine List.filterMap_eq_nil_iff.mpr ?_
  intro kp hkp
  match hd : kp.2.default with
  | none => simp [hd]
  | some dflt =>
    simp only [hd]
    have hnm : fieldMissing (applyUpdate d (computeUpdate props d)) kp.1 = false := by
      by_cases hm : fieldMissing d kp.1 = true
      · have hmem : (kp.1, dflt) ∈ computeUpdate props d := by
          rw [computeUpdate, List.mem_filterMap]
          exact ⟨kp, hkp, by simp [hd, hm]⟩
        obtain ⟨w, hw⟩ := docGet_applyUpdate_of_mem _ d ⟨dflt, hmem⟩
        rw [fieldMissing_eq_false_iff]
        exact ⟨w, hw⟩
      · rw [Bool.not_eq_true] at hm
        obtain ⟨x, hx⟩ := (fieldMissing_eq_false_iff d kp.1).mp hm
        rw [fieldMissing_eq_false_iff]
        by_cases hu : ∃ v, (kp.1, v) ∈ computeUpdate props d
        · exact docGet_applyUpdate_of_mem _ d hu
        · refine ⟨x, ?_⟩
          rw [docGet_applyUpdate_of_not_mem _ d (fun v hv => hu ⟨v, hv⟩), hx]
    simp [hnm]

/-- The document stream is a no-op on a collection it has already
processed. -/
theorem backfillDocs_idem (props : List (String × JsonSchemaProperty)) :
    ∀ docs : List Doc,
      backfillDocs props (backfillDocs props docs).1
        = ((backfillDocs props docs).1, 0)
  | [] => rfl
  | d :: ds => by
    by_cases hu : computeUpdate props d = []
    · simp [backfillDocs, hu, backfillDocs_idem props ds]
    · simp [backfillDocs, hu, backfillDocs_idem props ds,
        computeUpdate_applyUpdate_computeUpdate props d]

theorem storeGet_cons (p : String × List Doc) (ps : List (String × List Doc))
    (n : String) :
    storeGet ⟨p :: ps⟩ n = if p.1 = n then some p.2 else storeGet ⟨ps⟩ n := by
  by_cases h : p.1 = n
  · rw [if_pos h]
    unfold storeGet
    rw [List.find?_cons_of_pos _ (by simpa using h)]
    rfl
  · rw [if_neg h]
    unfold storeGet
    rw [List.find?_cons_of_neg _ (by simpa using h)]

theorem storeSet_cons (p : String × List Doc) (ps : List (String × List Doc))
    (nm : String) (ds : List Doc) :
    storeSet ⟨p :: ps⟩ nm ds
      = ⟨(if p.1 = nm then (nm, ds) else p) :: (storeSet ⟨ps⟩ nm ds).collections⟩ := by
  unfold storeSet
  simp

theorem storeGet_storeSet_isSome (st : Store) (nm n' : String) (ds : List Doc) :
    (storeGet (storeSet st nm ds) n').isSome = (storeGet st n').isSome := by
  obtain ⟨cs⟩ := st
  induction cs with
  | nil => rfl
  | cons p ps ih =>
    rw [storeSet_cons, storeGet_cons, storeGet_cons]
    by_cases hp : p.1 = nm
    · rw [if_pos hp]
      by_cases hp' : p.1 = n'
      · rw [if_pos (show (nm, ds).1 = n' from hp ▸ hp'), if_pos hp']
        rfl
      · rw [if_neg (show ¬(nm, ds).1 = n' from fun he => hp' (hp.trans he)),
          if_neg hp']
        exact ih
    · rw [if_neg hp]
      by_cases hp' : p.1 = n'
      · rw [if_pos hp', if_pos hp']
      · rw [if_neg hp', if_neg hp']
        exact ih

theorem storeGet_storeSet_self {st : Store} {nm : String}
    (h : (storeGet st nm).isSome = true) (ds : List Doc) :
    storeGet (storeSet st nm ds) nm = some ds := by
  obtain ⟨cs⟩ := st
  induction cs with
  | nil => simp [storeGet, List.find?] at h
  | cons p ps ih =>
    rw [storeSet_cons, storeGet_cons]
    by_cases hp : p.1 = nm
    · rw [if_pos (show (if p.1 = nm then (nm, ds) else p).1 = nm by
        rw [if_pos hp])]
      rw [if_pos hp]
    · rw [if_neg (show ¬(if p.1 = nm then (nm, ds) else p).1 = nm by
        rw [if_neg hp]; exact hp)]
      rw [storeGet_cons, if_neg hp] at h
      exact ih h

theorem find_first_congr {α : Type} (p q : α → Bool) :
    ∀ l : List α, (∀ a ∈ l, p a = q a) → l.find? p = l.find? q
  | [], _ => rfl
  | a :: l, h => by
    rw [List.find?_cons, List.find?_cons, h a (List.mem_cons_self a l),
      find_first_congr p q l (fun b hb => h b (List.mem_cons_of_mem a hb))]

theorem storeSet_storeSet_same (st : Store) (nm : String) (ds : List Doc) :
    storeSet (storeSet st nm ds) nm ds = storeSet st nm ds := by
  obtain ⟨cs⟩ := st
  simp only [storeSet, List.map_map, Store.mk.injEq]
  apply List.map_congr_left
  intro p _
  by_cases hp : p.1 = nm <;> simp [hp]

/-! ## C3: the update document fills exactly the gaps -/

/-- C3.  The update document `backfillCollection` computes for a record
consists of exactly the schema properties that carry a default and whose
current value in the record is absent, null or undefined; a field present
with any ordinary value (`0`, `false`, the empty string included) is never
part of it, and no field outside the defaulted set is ever written. -/
theorem backfill_update_exact (schema : JsonSchema) (doc : Doc) (k : String)
    (v : JsValue) :
    ((k, v) ∈ computeUpdate schema.properties doc ↔
      ∃ p, (k, p) ∈ schema.properties ∧ p.default = some v
        ∧ fieldMissing doc k = true)
    ∧ (∀ w, docGet doc k = some (BValue.val w) →
        (k, v) ∉ computeUpdate schema.properties doc) := by
  have hiff : (k, v) ∈ computeUpdate schema.properties doc ↔
      ∃ p, (k, p) ∈ schema.properties ∧ p.default = some v
        ∧ fieldMissing doc k = true := by
    rw [computeUpdate, List.mem_filterMap]
    constructor
    · rintro ⟨⟨k0, p0⟩, hmem, heq⟩
      match hd : p0.default with
      | none => rw [hd] at heq; exact absurd heq (by simp)
      | some d0 =>
        rw [hd] at heq
        change (if fieldMissing doc k0 = true then some (k0, d0) else none)
          = some (k, v) at heq
        by_cases hm : fieldMissing doc k0 = true
        · rw [if_pos hm] at heq
          simp only [Option.some.injEq, Prod.mk.injEq] at heq
          obtain ⟨hk, hv⟩ := heq
          exact ⟨p0, hk ▸ hmem, by rw [hd, hv], hk ▸ hm⟩
        · rw [if_neg hm] at heq
          exact absurd heq (by simp)
    · rintro ⟨p, hmem, hd, hm⟩
      refine ⟨(k, p), hmem, ?_⟩
      change (match p.default with
        | some d => if fieldMissing doc k = true then some (k, d) else none
        | none => none) = some (k, v)
      rw [hd]
      simp [hm]
  refine ⟨hiff, ?_⟩
  intro w hw hmem
  obtain ⟨p, _, _, hm⟩ := hiff.mp hmem
  rw [show fieldMissing doc k = false by
    rw [fieldMissing_eq_false_iff]; exact ⟨w, hw⟩] at hm
  exact Bool.noConfusion hm

/-! ## C4: backfill is idempotent -/

/-- C4.  `backfillCollection` is idempotent: for every record type,
validation schema and store state, a second run immediately after the
first reports zero modified records and leaves the store — every value
set by the first run and every value present before it, intentionally
falsy ones included — exactly as the first run left it. -/
theorem backfill_idempotent (model : PrismaModel) (schema : JsonSchema)
    (store : Store) :
    (backfillCollection model schema
        (backfillCollection model schema store).1).1
      = (backfillCollection model schema store).1
    ∧ modifiedOf (backfillCollection model schema
        (backfillCollection model schema store).1).2 = 0 := by
  by_cases hfd : fieldsWithDefaults schema = []
  · have h1 : backfillCollection model schema store
        = (store, .skippedNoDefaults) := by
      unfold backfillCollection
      rw [if_pos hfd]
    rw [h1]
    exact ⟨congrArg Prod.fst h1, by rw [h1]; rfl⟩
  · match hgc : getCollection store model with
    | none =>
      have h1 : backfillCollection model schema store
          = (store, .collectionNotFound) := by
        unfold backfillCollection
        rw [if_neg hfd, hgc]
      rw [h1]
      exact ⟨congrArg Prod.fst h1, by rw [h1]; rfl⟩
    | some cname =>
      match hsg : storeGet store cname with
      | none =>
        have h1 : backfillCollection model schema store
            = (store, .collectionNotFound) := by
          unfold backfillCollection
          rw [if_neg hfd, hgc]
          dsimp only
          rw [hsg]
        rw [h1]
        exact ⟨congrArg Prod.fst h1, by rw [h1]; rfl⟩
      | some docs =>
        have h1 : backfillCollection model schema store
            = (storeSet store cname (backfillDocs schema.properties docs).1,
               .completed (backfillDocs schema.properties docs).2) := by
          unfold backfillCollection
          rw [if_neg hfd, hgc]
          dsimp only
          rw [hsg]
        set docs' := (backfillDocs schema.properties docs).1 with hdocs'
        set s1 := storeSet store cname docs' with hs1def
        have hgc2 : getCollection s1 model = some cname := by
          unfold getCollection
          rw [find_first_congr _ (fun n => (storeGet store n).isSome)
            (collectionCandidates model)
            (fun n _ => by rw [storeGet_storeSet_isSome])]
          exact hgc
        have hsg2 : storeGet s1 cname = some docs' :=
          storeGet_storeSet_self (by rw [hsg]; rfl) docs'
        have h2 : backfillCollection model schema s1 = (s1, .completed 0) := by
          unfold backfillCollection
          rw [if_neg hfd, hgc2]
          dsimp only
          rw [hsg2]
          dsimp only
          rw [show backfillDocs schema.properties docs' = (docs', 0) from
              backfillDocs_idem schema.properties docs]
          dsimp only
          rw [hs1def, storeSet_storeSet_same]
        rw [h1]
        dsimp only
        rw [h2]
        exact ⟨rfl, rfl⟩

/-! ## C5: collection-name resolution -/

theorem find_first_split {α : Type} (p : α → Bool) :
    ∀ (l : List α) (a : α), l.find? p = some a →
      ∃ pre post, l = pre ++ a :: post ∧ p a = true ∧ ∀ c ∈ pre, p c = false
  | [], a, h => by simp [List.find?] at h
  | b :: l, a, h => by
    rw [List.find?_cons] at h
    cases hb : p b with
    | true =>
      rw [hb] at h
      obtain rfl : b = a := by simpa using h
      exact ⟨[], l, rfl, hb, by simp⟩
    | false =>
      rw [hb] at h
      obtain ⟨pre, post, hl, hpa, hpre⟩ := find_first_split p l a h
      refine ⟨b :: pre, post, by rw [hl]; rfl, hpa, ?_⟩
      intro c hc
      rcases List.mem_cons.mp hc with rfl | hc
      · exact hb
      · exact hpre c hc

/-- C5.  Collection resolution selects the first candidate of the
de-duplicated priority list (override-or-name, lowercased, pluralized,
pluralized-lowercased, kebab-cased, pluralized-kebab-cased) whose
index-metadata probe succeeds: whenever it returns a collection, that name
occurs in the candidate list, its probe succeeds, and every candidate
before it fails its probe.  (Its witness instantiates the claim's
`UserProfile` / `user-profiles` example.) -/
theorem collection_resolution_first_match (store : Store) (model : PrismaModel)
    (name : String) (h : getCollection store model = some name) :
    ∃ pre post, collectionCandidates model = pre ++ name :: post
      ∧ (storeGet store name).isSome = true
      ∧ ∀ c ∈ pre, (storeGet store c).isSome = false := by
  obtain ⟨pre, post, hl, hp, hpre⟩ :=
    find_first_split (fun n => (storeGet store n).isSome)
      (collectionCandidates model) name h
  exact ⟨pre, post, hl, hp, hpre⟩

theorem collection_resolution_first_match_witness :
    getCollection ⟨[("user-profiles", [])]⟩ ⟨"UserProfile", [], none⟩
        = some "user-profiles"
    ∧ ∃ pre post,
        collectionCandidates ⟨"UserProfile", [], none⟩
            = pre ++ "user-profiles" :: post
        ∧ (storeGet ⟨[("user-profiles", [])]⟩ "user-profiles").isSome = true
        ∧ ∀ c ∈ pre, (storeGet ⟨[("user-profiles", [])]⟩ c).isSome = false :=
  ⟨by decide, collection_resolution_first_match _ _ _ (by decide)⟩

/-! ## C7: connection release -/

/-- C7 (failing execution).  `backfillCollection` does not release the
store connection on the mid-stream error path: with one collection
`users` holding one record that lacks the defaulted field `isActive`, and
an `updateOne` that fails, the call opens the connection, raises, and ends
with the connection still open (`connClosed = false`).  The spec's
release-on-every-exit-path requirement is therefore not met by the code:
`client.close()` is only reached on the not-found and normal-completion
paths. -/
theorem connection_left_open_on_update_error :
    (backfillRun ⟨"User", [], none⟩
        ⟨"object",
         [("isActive", ⟨"boolean", some (.bool true), none, none, none⟩)],
         []⟩
        ⟨[("users", [[("_id", BValue.val (.int 1))]])]⟩
        (fun _ => false)).1
      = ⟨.updateErrorRaised, true, false⟩ := by decide

/-! ## C2: default-value resolution -/

theorem dropWhile_eq_self_of {p : Char → Bool} :
    ∀ l : List Char, (∀ c ∈ l, p c = false) → l.dropWhile p = l
  | [], _ => rfl
  | c :: l, h => by
    rw [List.dropWhile_cons, h c (List.mem_cons_self c l)]
    simp

theorem jsTrim_of_no_space {s : List Char}
    (h : ∀ c ∈ s, isJsSpace c = false) : jsTrim s = s := by
  unfold jsTrim
  rw [dropWhile_eq_self_of s h,
    dropWhile_eq_self_of s.reverse (fun c hc => h c (List.mem_reverse.mp hc)),
    List.reverse_reverse]

theorem isJsSpace_eq_false_of_digit {c : Char} (h : c.isDigit = true) :
    isJsSpace c = false := by
  cases hs : isJsSpace c
  · rfl
  · exfalso
    unfold isJsSpace at hs
    simp only [Bool.or_eq_true, decide_eq_true_eq] at hs
    rcases hs with ((((rfl | rfl) | rfl) | rfl) | rfl) | rfl <;> exact absurd h (by decide)

theorem isJsSpace_eq_false_of_word {c : Char} (h : isWordChar c = true) :
    isJsSpace c = false := by
  cases hs : isJsSpace c
  · rfl
  · exfalso
    unfold isJsSpace at hs
    simp only [Bool.or_eq_true, decide_eq_true_eq] at hs
    rcases hs with ((((rfl | rfl) | rfl) | rfl) | rfl) | rfl <;> exact absurd h (by decide)

theorem beq_quote_eq_false_of_digit {c : Char} (h : c.isDigit = true) :
    (('\x22' : Char) == c) = false := by
  cases hb : ('\x22' : Char) == c
  · rfl
  · exact absurd (eq_of_beq hb ▸ h) (by decide)

theorem beq_quote_eq_false_of_word {c : Char} (h : isWordChar c = true) :
    (('\x22' : Char) == c) = false := by
  cases hb : ('\x22' : Char) == c
  · rfl
  · exact absurd (eq_of_beq hb ▸ h) (by decide)

theorem jsTrim_cons_append (a b : Char) (s : List Char)
    (ha : isJsSpace a = false) (hb : isJsSpace b = false) :
    jsTrim (a :: (s ++ [b])) = a :: (s ++ [b]) := by
  unfold jsTrim
  rw [List.dropWhile_cons, ha]
  simp only [Bool.false_eq_true, if_false, List.reverse_cons, List.reverse_append,
    List.reverse_cons, List.reverse_nil, List.nil_append, List.singleton_append,
    List.cons_append, List.dropWhile_cons, hb]
  simp

theorem parseDefault_quoted (s : List Char) :
    parseDefaultValueCore ('\x22' :: (s ++ ['\x22']))
      = some (.str s.asString) := by
  unfold parseDefaultValueCore
  rw [jsTrim_cons_append _ _ s (by decide) (by decide)]
  rw [if_pos (by
    rw [Bool.and_eq_true]
    constructor
    · simp [List.isPrefixOf]
    · rw [show ('\x22' :: (s ++ ['\x22'])).reverse
          = '\x22' :: (s.reverse ++ ['\x22']) by simp]
      simp [List.isPrefixOf])]
  simp

theorem parseDefault_int (s : List Char) (hne : s ≠ [])
    (hd : s.all Char.isDigit = true) :
    parseDefaultValueCore s = some (.int (digitsToNat s)) := by
  have hall : ∀ c ∈ s, c.isDigit = true := fun c hc => List.all_eq_true.mp hd c hc
  unfold parseDefaultValueCore
  rw [jsTrim_of_no_space (fun c hc => isJsSpace_eq_false_of_digit (hall c hc))]
  obtain ⟨c0, t, rfl⟩ : ∃ c0 t, s = c0 :: t := by
    cases s with
    | nil => exact absurd rfl hne
    | cons c0 t => exact ⟨c0, t, rfl⟩
  rw [if_neg (by
    intro hcond
    have h1 := ((Bool.and_eq_true _ _) ▸ hcond).1
    rw [show (['\x22'].isPrefixOf (c0 :: t))
        = (('\x22' : Char) == c0 && [].isPrefixOf t) from rfl,
      beq_quote_eq_false_of_digit (hall c0 (List.mem_cons_self c0 t))] at h1
    exact Bool.noConfusion h1)]
  rw [if_neg (fun heq => absurd (heq ▸ hd) (by decide)),
    if_neg (fun heq => absurd (heq ▸ hd) (by decide)),
    if_pos (by simp [hd])]

theorem takeWhile_digits_dot (bs : List Char) :
    ∀ a : List Char, (∀ c ∈ a, c.isDigit = true) →
      ((a ++ '.' :: bs).takeWhile Char.isDigit = a
        ∧ (a ++ '.' :: bs).dropWhile Char.isDigit = '.' :: bs)
  | [], _ => by
    constructor
    · rw [List.nil_append, List.takeWhile_cons]
      simp
    · rw [List.nil_append, List.dropWhile_cons]
      simp
  | c :: a, h => by
    obtain ⟨ht, hd⟩ :=
      takeWhile_digits_dot bs a (fun x hx => h x (List.mem_cons_of_mem c hx))
    have hc := h c (List.mem_cons_self c a)
    constructor
    · rw [List.cons_append, List.takeWhile_cons, hc]
      simp [ht]
    · rw [List.cons_append, List.dropWhile_cons, hc]
      simp [hd]

theorem parseDefault_decimal (a b : List Char) (hna : a ≠ []) (hnb : b ≠ [])
    (hda : a.all Char.isDigit = true) (hdb : b.all Char.isDigit = true) :
    parseDefaultValueCore (a ++ '.' :: b)
      = some (.float ((digitsToNat a : Rat)
          + (digitsToNat b : Rat) / ((10 : Rat) ^ b.length))) := by
  have halla : ∀ c ∈ a, c.isDigit = true := fun c hc => List.all_eq_true.mp hda c hc
  have hallb : ∀ c ∈ b, c.isDigit = true := fun c hc => List.all_eq_true.mp hdb c hc
  have hmem : ∀ c ∈ a ++ '.' :: b, c.isDigit = true ∨ c = '.' := by
    intro c hc
    rcases List.mem_append.mp hc with h | h
    · exact Or.inl (halla c h)
    · rcases List.mem_cons.mp h with rfl | h
      · exact Or.inr rfl
      · exact Or.inl (hallb c h)
  have hdotmem : '.' ∈ a ++ '.' :: b :=
    List.mem_append.mpr (Or.inr (List.mem_cons_self _ _))
  unfold parseDefaultValueCore
  rw [jsTrim_of_no_space (fun c hc => by
    rcases hmem c hc with h | rfl
    · exact isJsSpace_eq_false_of_digit h
    · decide)]
  obtain ⟨c0, t, hs⟩ : ∃ c0 t, a ++ '.' :: b = c0 :: t := by
    cases a with
    | nil => exact ⟨'.', b, rfl⟩
    | cons c0 t => exact ⟨c0, t ++ '.' :: b, rfl⟩
  have hc0 : c0.isDigit = true ∨ c0 = '.' := hmem c0 (hs ▸ List.mem_cons_self c0 t)
  rw [hs]
  rw [if_neg (by
    intro hcond
    have h1 := ((Bool.and_eq_true _ _) ▸ hcond).1
    rw [show (['\x22'].isPrefixOf (c0 :: t))
        = (('\x22' : Char) == c0 && [].isPrefixOf t) from rfl] at h1
    rcases hc0 with h | rfl
    · rw [beq_quote_eq_false_of_digit h] at h1
      exact Bool.noConfusion h1
    · rw [show (('\x22' : Char) == '.') = false from by decide,
        Bool.false_and] at h1
      exact Bool.noConfusion h1)]
  have hdot : '.' ∈ c0 :: t := hs ▸ hdotmem
  rw [if_neg (fun heq => absurd (heq ▸ hdot) (by decide)),
    if_neg (fun heq => absurd (heq ▸ hdot) (by decide))]
  have hnotall : ((c0 :: t) ≠ [] && (c0 :: t).all Char.isDigit) = false := by
    cases hall : (c0 :: t).all Char.isDigit
    · simp
    · exact absurd (List.all_eq_true.mp hall '.' hdot) (by decide)
  rw [if_neg (by rw [hnotall]; exact Bool.noConfusion)]
  obtain ⟨htw, hdw⟩ := takeWhile_digits_dot b a halla
  rw [← hs]
  have hshape : parseDefaultValueCore.decimalShape (a ++ '.' :: b) = true := by
    unfold parseDefaultValueCore.decimalShape
    rw [htw, hdw]
    simp [hna, hnb, hdb]
  rw [if_pos hshape]
  unfold parseDefaultValueCore.decimalValue
  rw [htw, hdw]
  simp

theorem parseDefault_bareword (s : List Char) (hne : s ≠ [])
    (hw : ∀ c ∈ s, isWordChar c = true) (ht : s ≠ "true".data)
    (hf : s ≠ "false".data) (hnd : s.all Char.isDigit = false) :
    parseDefaultValueCore s = some (.str s.asString) := by
  unfold parseDefaultValueCore
  rw [jsTrim_of_no_space (fun c hc => isJsSpace_eq_false_of_word (hw c hc))]
  obtain ⟨c0, t, rfl⟩ : ∃ c0 t, s = c0 :: t := by
    cases s with
    | nil => exact absurd rfl hne
    | cons c0 t => exact ⟨c0, t, rfl⟩
  rw [if_neg (by
    intro hcond
    have h1 := ((Bool.and_eq_true _ _) ▸ hcond).1
    rw [show (['\x22'].isPrefixOf (c0 :: t))
        = (('\x22' : Char) == c0 && [].isPrefixOf t) from rfl,
      beq_quote_eq_false_of_word (hw c0 (List.mem_cons_self c0 t))] at h1
    exact Bool.noConfusion h1)]
  rw [if_neg ht, if_neg hf,
    if_neg (by rw [hnd]; simp)]
  have hnodot : ∀ c ∈ c0 :: t, c ≠ '.' := by
    intro c hc heq
    exact absurd (heq ▸ hw c hc) (by decide)
  have hshape : parseDefaultValueCore.decimalShape (c0 :: t) = false := by
    unfold parseDefaultValueCore.decimalShape
    cases hdw : (c0 :: t).dropWhile Char.isDigit with
    | nil => simp
    | cons d r =>
      have hdmem : d ∈ c0 :: t :=
        (List.dropWhile_sublist Char.isDigit).mem (hdw ▸ List.mem_cons_self d r)
      have : d ≠ '.' := hnodot d hdmem
      simp [this]
  rw [if_neg (by rw [hshape]; exact Bool.noConfusion)]
  have hnoparen : ((c0 :: t).contains '(') = false := by
    simp only [List.contains, List.elem_eq_mem, decide_eq_false_iff_not]
    intro hm
    exact absurd (hw '(' hm) (by decide)
  rw [if_pos (by rw [hnoparen]; rfl)]

theorem parseDefault_paren (s : List Char) (hp : '(' ∈ jsTrim s)
    (hq : (['\x22'].isPrefixOf (jsTrim s)
        && ['\x22'].isPrefixOf (jsTrim s).reverse) = false) :
    parseDefaultValueCore s = none := by
  unfold parseDefaultValueCore
  rw [if_neg (by rw [hq]; exact Bool.noConfusion)]
  rw [if_neg (fun heq => absurd (heq ▸ hp) (by decide)),
    if_neg (fun heq => absurd (heq ▸ hp) (by decide))]
  have hnotall : (jsTrim s).all Char.isDigit = false := by
    cases hall : (jsTrim s).all Char.isDigit
    · rfl
    · exact absurd (List.all_eq_true.mp hall '(' hp) (by decide)
  rw [if_neg (by rw [hnotall]; simp)]
  have hshape : parseDefaultValueCore.decimalShape (jsTrim s) = false := by
    unfold parseDefaultValueCore.decimalShape
    cases hdw : (jsTrim s).dropWhile Char.isDigit with
    | nil => simp
    | cons d r =>
      by_cases hd : d = '.'
      · subst hd
        cases hr : r.all Char.isDigit
        · simp [hr]
        · exfalso
          have hsplit := List.takeWhile_append_dropWhile (p := Char.isDigit)
            (l := jsTrim s)
          rcases List.mem_append.mp (by rw [hsplit]; exact hp) with h | h
          · exact absurd (List.mem_takeWhile_imp h) (by decide)
          · rw [hdw] at h
            rcases List.mem_cons.mp h with he | h
            · exact absurd he (by decide)
            · exact absurd (List.all_eq_true.mp hr '(' h) (by decide)
      · simp [hd]
  rw [if_neg (by rw [hshape]; exact Bool.noConfusion)]
  have hcontains : ((jsTrim s).contains '(') = true := by
    simp only [List.contains, List.elem_eq_mem, decide_eq_true_eq]
    exact hp
  rw [if_neg (by rw [hcontains]; exact Bool.noConfusion)]

/-- C2 (amended).  Default-payload resolution, case by case in the order
the parser checks them: a double-quoted literal resolves to the string
between the quotes (even when it contains `(` — this precedence is the one
amendment to the claim); `true`/`false` resolve to booleans; a pure
integer literal resolves to its integer value; a decimal literal resolves
to its (exact) floating-point value; a bare identifier that is none of the
above resolves to itself as a literal string; and any other payload
containing `(` — every function-style default — resolves to no default at
all. -/
theorem default_value_resolution :
    (∀ s : List Char, parseDefaultValueCore ('\x22' :: (s ++ ['\x22']))
        = some (.str s.asString))
    ∧ parseDefaultValue "true" = some (.bool true)
    ∧ parseDefaultValue "false" = some (.bool false)
    ∧ (∀ s : List Char, s ≠ [] → s.all Char.isDigit = true →
        parseDefaultValueCore s = some (.int (digitsToNat s)))
    ∧ (∀ a b : List Char, a ≠ [] → b ≠ [] → a.all Char.isDigit = true →
        b.all Char.isDigit = true →
        parseDefaultValueCore (a ++ '.' :: b)
          = some (.float ((digitsToNat a : Rat)
              + (digitsToNat b : Rat) / ((10 : Rat) ^ b.length))))
    ∧ (∀ s : List Char, s ≠ [] → (∀ c ∈ s, isWordChar c = true) →
        s ≠ "true".data → s ≠ "false".data → s.all Char.isDigit = false →
        parseDefaultValueCore s = some (.str s.asString))
    ∧ (∀ s : List Char, '(' ∈ jsTrim s →
        (['\x22'].isPrefixOf (jsTrim s)
          && ['\x22'].isPrefixOf (jsTrim s).reverse) = false →
        parseDefaultValueCore s = none) :=
  ⟨parseDefault_quoted, by decide, by decide, parseDefault_int,
   parseDefault_decimal, parseDefault_bareword, parseDefault_paren⟩

/-- C2 (counterexample to the unamended claim).  The payload `"(abc"` — a
double-quoted literal containing `(`, reachable from the field line
`x String @default("(abc")` — contains `(` yet resolves to the string
`(abc`, not to "no default": the quoted-literal case is checked before the
parenthesis policy. -/
theorem default_paren_policy_cex :
    ('(' ∈ "\x22(abc\x22".data)
    ∧ parseDefaultValue "\x22(abc\x22" = some (.str "(abc")
    ∧ (parseFieldLineCore ("x String @default(\x22(abc\x22)".data)).map
        PrismaField.defaultValue = some (some (.str "(abc")) := by decide

/-! ## C8: enum-block parsing -/

/-- C8 (amended).  Every parsed enumeration comes from a matched `enum`
block; its name is the word captured after the `enum` keyword, and its
value labels are exactly the trimmed nonempty lines of the block that do
not start with `enum`, `\x7b` or `\x7d` (the amendment: the source
excludes every line starting with the characters `enum`, not only the
header, so a value label such as `enumeration` is dropped), each with one
trailing comma stripped, in order of appearance. -/
theorem enum_block_characterization (input : String) (e : PrismaEnum)
    (h : e ∈ (parse input).enums) :
    ∃ blk, blk ∈ scanBlocks "enum".data input.data
      ∧ parseEnumBlockCore blk = some e
      ∧ (∃ nm, nameAfterKeyword "enum".data blk = some nm
          ∧ e.name = nm.asString)
      ∧ e.values = (((splitLines blk).map jsTrim).filter (fun l =>
          l ≠ [] && !("enum".data.isPrefixOf l) && !(['\x7b'].isPrefixOf l)
            && !(['\x7d'].isPrefixOf l))).map
          (fun l => (stripTrailingComma l).asString) := by
  have h' : e ∈ (scanBlocks "enum".data input.data).filterMap
      parseEnumBlockCore := h
  obtain ⟨blk, hmem, heq⟩ := List.mem_filterMap.mp h'
  unfold parseEnumBlockCore at heq
  cases hnm : nameAfterKeyword "enum".data blk with
  | none =>
    rw [hnm] at heq
    exact absurd heq (by simp)
  | some nm =>
    rw [hnm] at heq
    obtain rfl := Option.some.inj heq
    refine ⟨blk, hmem, ?_, ⟨nm, hnm, rfl⟩, rfl⟩
    unfold parseEnumBlockCore
    rw [hnm]

theorem enum_block_characterization_witness :
    ((⟨"Color", ["RED", "BLUE"]⟩ : PrismaEnum)
        ∈ (parse "enum Color \x7b\nRED\nBLUE,\n\x7d").enums)
    ∧ ∃ blk, blk ∈ scanBlocks "enum".data "enum Color \x7b\nRED\nBLUE,\n\x7d".data
        ∧ parseEnumBlockCore blk = some ⟨"Color", ["RED", "BLUE"]⟩
        ∧ (∃ nm, nameAfterKeyword "enum".data blk = some nm
            ∧ (⟨"Color", ["RED", "BLUE"]⟩ : PrismaEnum).name = nm.asString)
        ∧ (⟨"Color", ["RED", "BLUE"]⟩ : PrismaEnum).values
            = (((splitLines blk).map jsTrim).filter (fun l =>
                l ≠ [] && !("enum".data.isPrefixOf l) && !(['\x7b'].isPrefixOf l)
                  && !(['\x7d'].isPrefixOf l))).map
              (fun l => (stripTrailingComma l).asString) :=
  ⟨by decide, enum_block_characterization _ _ (by decide)⟩

/-- C8 (counterexample to the unamended claim).  In the block
`enum Kind ... enumeration ... ACTIVE ...` the line `enumeration` is a
nonempty remaining line that is not a brace, so under the claim the value
labels would be `[enumeration, ACTIVE]`; the parser instead drops every
line starting with `enum` and yields `[ACTIVE]`. -/
theorem enum_value_line_dropped_cex :
    (parse "enum Kind \x7b\nenumeration\nACTIVE\n\x7d").enums.map
        PrismaEnum.values = [["ACTIVE"]]
    ∧ (((((splitLines "enum Kind \x7b\nenumeration\nACTIVE\n\x7d".data).drop 1).map
          jsTrim).filter (fun l =>
            l ≠ [] && !(['\x7b'].isPrefixOf l) && !(['\x7d'].isPrefixOf l))).map
        (fun l => (stripTrailingComma l).asString))
      = ["enumeration", "ACTIVE"]
    ∧ (["ACTIVE"] : List String) ≠ ["enumeration", "ACTIVE"] := by decide

/-! ## C9: parsing is total and best-effort -/

/-- C9.  `parse` is a total function of the input text (the embedding
returns a `PrismaSchema` for every string, never an error); every parsed
model and enum arises from a successfully matched block, every field of a
parsed model arises from a candidate line on which the field-line match
succeeded (a line that fails the match contributes nothing), and an input
with no model or enum block yields empty catalogs rather than an error. -/
theorem parse_total_best_effort (input : String) :
    (∀ m ∈ (parse input).models,
        ∃ blk ∈ scanBlocks "model".data input.data,
          parseModelBlockCore blk = some m)
    ∧ (∀ e ∈ (parse input).enums,
        ∃ blk ∈ scanBlocks "enum".data input.data,
          parseEnumBlockCore blk = some e)
    ∧ (∀ m ∈ (parse input).models, ∀ f ∈ m.fields,
        ∃ blk ∈ scanBlocks "model".data input.data,
          ∃ line ∈ fieldCandidateLines blk, parseFieldLineCore line = some f)
    ∧ (scanBlocks "model".data input.data = [] → (parse input).models = [])
    ∧ (scanBlocks "enum".data input.data = [] → (parse input).enums = []) := by
  refine ⟨?_, ?_, ?_, ?_, ?_⟩
  · intro m hm
    exact List.mem_filterMap.mp hm
  · intro e he
    exact List.mem_filterMap.mp he
  · intro m hm f hf
    obtain ⟨blk, hmem, heq⟩ := List.mem_filterMap.mp hm
    refine ⟨blk, hmem, ?_⟩
    unfold parseModelBlockCore at heq
    cases hnm : nameAfterKeyword "model".data blk with
    | none =>
      rw [hnm] at heq
      exact absurd heq (by simp)
    | some nm =>
      rw [hnm] at heq
      obtain rfl := Option.some.inj heq
      have hf' : f ∈ parseFieldsCore blk := hf
      obtain ⟨line, hline, hsome⟩ := List.mem_filterMap.mp hf'
      refine ⟨line, hline, ?_⟩
      by_cases hcom : ("//".data.isPrefixOf line || "@@".data.isPrefixOf line)
          = true
      · rw [if_pos hcom] at hsome
        exact absurd hsome (by simp)
      · rw [if_neg hcom] at hsome
        exact hsome
  · intro h
    show extractModelsCore input.data = []
    unfold extractModelsCore
    rw [h]
    rfl
  · intro h
    show extractEnumsCore input.data = []
    unfold extractEnumsCore
    rw [h]
    rfl

/-! ## C10: array properties for enum and date-time element types -/

/-- Closed form of `convertFieldToJsonSchema`: the property's components as
functions of the field. -/
theorem convertFieldToJsonSchema_eq (schema : PrismaSchema) (field : PrismaField) :
    convertFieldToJsonSchema schema field =
      { type := if field.isArray = true then "array"
                else mapPrismaTypeToJsonSchema schema field.type
        default := field.defaultValue
        items := if field.isArray = true
                 then some ⟨mapPrismaTypeToJsonSchema schema field.type⟩ else none
        format := if field.type = "DateTime" then some "date-time" else none
        enum := if isEnum schema field.type = true
                then (schema.enums.find? (fun e => e.name = field.type)).map
                  PrismaEnum.values
                else none } := by
  unfold convertFieldToJsonSchema
  cases hdv : field.defaultValue <;>
    by_cases hA : field.isArray = true <;>
    by_cases hdt : field.type = "DateTime" <;>
    by_cases he : isEnum schema field.type = true <;>
    cases hf : schema.enums.find? (fun e => e.name = field.type) <;>
    simp [hA, hdt, he, hf, hdv] <;>
    (split <;> simp_all)

/-- C10 (counterexample to the unamended claim).  An enum may be declared
with the name of a primitive type (here `Json`); the type mapper checks
the primitive table first, so an array field of that enum type gets an
item descriptor of type `object`, not `string` — the enum list is still
attached to the array property. -/
theorem array_enum_items_cex :
    isEnum ⟨[], [⟨"Json", ["A"]⟩]⟩ "Json" = true
    ∧ (convertFieldToJsonSchema ⟨[], [⟨"Json", ["A"]⟩]⟩
        ⟨"xs", "Json", false, true, none, false, false, []⟩).items
      = some ⟨"object"⟩
    ∧ (convertFieldToJsonSchema ⟨[], [⟨"Json", ["A"]⟩]⟩
        ⟨"xs", "Json", false, true, none, false, false, []⟩).enum
      = some ["A"]
    ∧ (⟨"object"⟩ : ItemSpec) ≠ ⟨"string"⟩ := by decide

/-- C10 (amended).  For an array field whose element type is a declared
enum that is not named after a primitive type (the amendment: an enum
named `String`, `Int`, `Float`, `Boolean`, `DateTime`, `Json` or `Bytes`
is shadowed by the primitive table), the generated property is an array
with item type `string` and the enum's value list attached to the array
property itself; for an array field of type `DateTime`, the `date-time`
format hint is attached to the array property itself while the item
descriptor carries only the mapped type tag `string`. -/
theorem array_enum_datetime_property (schema : PrismaSchema)
    (field : PrismaField) (hA : field.isArray = true) :
    (∀ e, schema.enums.find? (fun en => en.name = field.type) = some e →
      field.type ∉ (["String", "Int", "Float", "Boolean", "DateTime", "Json",
          "Bytes"] : List String) →
      ((convertFieldToJsonSchema schema field).type = "array"
        ∧ (convertFieldToJsonSchema schema field).items = some ⟨"string"⟩
        ∧ (convertFieldToJsonSchema schema field).enum = some e.values))
    ∧ (field.type = "DateTime" →
      ((convertFieldToJsonSchema schema field).type = "array"
        ∧ (convertFieldToJsonSchema schema field).items = some ⟨"string"⟩
        ∧ (convertFieldToJsonSchema schema field).format = some "date-time")) := by
  rw [convertFieldToJsonSchema_eq]
  constructor
  · intro e hf hnp
    simp only [List.mem_cons, List.not_mem_nil, or_false, not_or] at hnp
    obtain ⟨h1, h2, h3, h4, h5, h6, h7⟩ := hnp
    have he : isEnum schema field.type = true := by
      unfold isEnum
      rw [List.any_eq_true]
      exact ⟨e, List.mem_of_find?_eq_some hf, by simpa using List.find?_some hf⟩
    have hmap : mapPrismaTypeToJsonSchema schema field.type = "string" := by
      unfold mapPrismaTypeToJsonSchema
      rw [if_neg h1, if_neg h2, if_neg h3, if_neg h4, if_neg h5, if_neg h6,
        if_neg h7, if_pos he]
    exact ⟨by simp [hA], by simp [hA, hmap], by simp [he, hf]⟩
  · intro hdt
    have hmap : mapPrismaTypeToJsonSchema schema field.type = "string" := by
      unfold mapPrismaTypeToJsonSchema
      rw [hdt]
      rfl
    exact ⟨by simp [hA], by simp [hA, hmap], by simp [hdt]⟩

theorem array_enum_datetime_property_witness :
    ((⟨"xs", "Color", false, true, none, false, false, []⟩ : PrismaField).isArray
        = true)
    ∧ ((convertFieldToJsonSchema ⟨[], [⟨"Color", ["RED"]⟩]⟩
          ⟨"xs", "Color", false, true, none, false, false, []⟩).type = "array"
        ∧ (convertFieldToJsonSchema ⟨[], [⟨"Color", ["RED"]⟩]⟩
            ⟨"xs", "Color", false, true, none, false, false, []⟩).items
          = some ⟨"string"⟩
        ∧ (convertFieldToJsonSchema ⟨[], [⟨"Color", ["RED"]⟩]⟩
            ⟨"xs", "Color", false, true, none, false, false, []⟩).enum
          = some ["RED"])
    ∧ ((convertFieldToJsonSchema ⟨[], [⟨"Color", ["RED"]⟩]⟩
          ⟨"ds", "DateTime", false, true, none, false, false, []⟩).type = "array"
        ∧ (convertFieldToJsonSchema ⟨[], [⟨"Color", ["RED"]⟩]⟩
            ⟨"ds", "DateTime", false, true, none, false, false, []⟩).items
          = some ⟨"string"⟩
        ∧ (convertFieldToJsonSchema ⟨[], [⟨"Color", ["RED"]⟩]⟩
            ⟨"ds", "DateTime", false, true, none, false, false, []⟩).format
          = some "date-time") :=
  ⟨rfl,
   (array_enum_datetime_property ⟨[], [⟨"Color", ["RED"]⟩]⟩
       ⟨"xs", "Color", false, true, none, false, false, []⟩ rfl).1
     ⟨"Color", ["RED"]⟩ (by decide) (by decide),
   (array_enum_datetime_property ⟨[], [⟨"Color", ["RED"]⟩]⟩
       ⟨"ds", "DateTime", false, true, none, false, false, []⟩ rfl).2 rfl⟩

end PMM
